import Mathlib

/-!
Verification development for the latex-diagrams repository.

The repository is a React application with two app variants.  The parts with
algorithmic content, modelled here over `List Char`:

* `LatexPreview.processLatex` (src/unnamed/part_000): the line-by-line
  delimiter segmenter with the `$$`-placeholder substitution trick;
* `TikzA.normalizeToAscii` (src/unnamed/part_001): the NFD-decomposition based
  Unicode normalizer with ASCII fast path and comma-glyph normalization;
* `TikzA.fixCommasInMath` (src/unnamed/part_001): the comma fixer for
  `$`-delimited math runs;
* `TikzB.normalizeToAscii` (src/unnamed/part_002): the explicit accent-map
  based normalizer of the second app variant;
* `AppMain.containsTikz` / `AppMain.route` (src/src/App.tsx): the backend
  selector.

Modelling conventions: JavaScript strings become `List Char`; a global regex
`replace` becomes an explicit left-to-right scanner; the external renderers
(KaTeX, TikZJax) are opaque, so a rendered segment is kept as an abstract
`Seg` value carrying the original matched span and the (trimmed) content that
was handed to the renderer, and delimiter matches never extend across
already-rendered output.  `String.prototype.normalize('NFD')` is modelled by a
finite canonical-decomposition table covering the accented Latin letters that
the repository's own accent map names, plus the two replacement-map symbols
with a canonical decomposition (U+2260 and U+2209); every other character
decomposes to itself.
-/

set_option maxRecDepth 16384

namespace LatexDiagrams

/-- Strings of the modelled JavaScript program are lists of characters. -/
abbrev Str := List Char

/-- Association lookup with decidable character equality, modelling first-match
replacement maps (JavaScript object iteration is in insertion order). -/
def lookupC (c : Char) : List (Char × Str) → Option Str
  | [] => none
  | kv :: rest => if kv.1 = c then some kv.2 else lookupC c rest

theorem lookupC_mem {c : Char} {m : List (Char × Str)} {v : Str}
    (h : lookupC c m = some v) : (c, v) ∈ m := by
  induction m with
  | nil => simp [lookupC] at h
  | cons kv rest ih =>
    by_cases hk : kv.1 = c
    · simp only [lookupC, if_pos hk] at h
      have hv : kv.2 = v := Option.some.inj h
      have hkv : (c, v) = kv := Prod.ext hk.symm hv.symm
      exact List.mem_cons.mpr (Or.inl hkv)
    · simp only [lookupC, if_neg hk] at h
      exact List.mem_cons_of_mem _ (ih h)

theorem lookupC_eq_none {c : Char} {m : List (Char × Str)}
    (h : ∀ kv ∈ m, kv.1 ≠ c) : lookupC c m = none := by
  induction m with
  | nil => rfl
  | cons kv rest ih =>
    have h1 : kv.1 ≠ c := h kv (List.mem_cons_self _ _)
    simp only [lookupC, h1, ite_false]
    exact ih fun kv' hm => h kv' (List.mem_cons_of_mem _ hm)

/-- A character is in the 7-bit ASCII range (the test `/[^\x00-\x7F]/`). -/
def isAsciiChar (c : Char) : Bool := c.toNat ≤ 0x7F

/-- A whole string is ASCII. -/
def allAscii (s : Str) : Bool := s.all isAsciiChar

/-- A combining diacritical mark, the class `[̀-ͯ]`. -/
def isCombining (c : Char) : Bool := 0x300 ≤ c.toNat && c.toNat ≤ 0x36F

/-- One global single-character replacement, `s.replace(new RegExp(k,'g'), v)`
for a one-character pattern `k`. -/
def replaceChar (k : Char) (v : Str) (s : Str) : Str :=
  s.flatMap fun c => if c = k then v else [c]

/-- Sequential application of all map entries, the source's
`for (const [unicode, ascii] of Object.entries(replacements))` loop. -/
def applyMap (entries : List (Char × Str)) (s : Str) : Str :=
  entries.foldl (fun acc kv => replaceChar kv.1 kv.2 acc) s

/-- Simultaneous single-pass substitution; `applyMap` coincides with it when
values are ASCII and keys are not (proved below). -/
def subst (entries : List (Char × Str)) (c : Char) : Str :=
  (lookupC c entries).getD [c]

theorem lookupC_cons (c : Char) (kv : Char × Str) (rest : List (Char × Str)) :
    lookupC c (kv :: rest) = if kv.1 = c then some kv.2 else lookupC c rest := rfl

theorem flatMap_congr {α β : Type} {l : List α} {f g : α → List β}
    (h : ∀ a ∈ l, f a = g a) : l.flatMap f = l.flatMap g := by
  induction l with
  | nil => rfl
  | cons a l ih =>
    simp only [List.flatMap_cons]
    rw [h a (List.mem_cons_self _ _), ih fun a ha => h a (List.mem_cons_of_mem _ ha)]

theorem flatMap_singleton_id {α : Type} (l : List α) :
    (l.flatMap fun a => [a]) = l := by
  induction l with
  | nil => rfl
  | cons a l ih => simp only [List.flatMap_cons, ih, List.singleton_append]

theorem subst_ascii {entries : List (Char × Str)}
    (hk : ∀ kv ∈ entries, isAsciiChar kv.1 = false) {c : Char}
    (hc : isAsciiChar c = true) : subst entries c = [c] := by
  unfold subst
  rw [lookupC_eq_none]
  · rfl
  · intro kv hm he
    have hfalse := hk kv hm
    rw [he, hc] at hfalse
    simp at hfalse

theorem flatMap_subst_ascii {entries : List (Char × Str)}
    (hk : ∀ kv ∈ entries, isAsciiChar kv.1 = false) {v : Str}
    (hv : allAscii v = true) : v.flatMap (subst entries) = v := by
  have : ∀ c ∈ v, subst entries c = [c] := by
    intro c hc
    exact subst_ascii hk (by
      have := List.all_eq_true.mp hv c hc
      exact this)
  rw [flatMap_congr this, flatMap_singleton_id]

/-- Condition under which the sequential fold equals the single pass: every
key is non-ASCII and every value is pure ASCII (true of all three maps in the
sources; checked by `decide` at the concrete maps). -/
def goodEntries (entries : List (Char × Str)) : Bool :=
  entries.all fun kv => !isAsciiChar kv.1 && allAscii kv.2

theorem applyMap_eq_flatMap {entries : List (Char × Str)}
    (h : goodEntries entries = true) (s : Str) :
    applyMap entries s = s.flatMap (subst entries) := by
  induction entries generalizing s with
  | nil =>
    simp only [applyMap, List.foldl_nil]
    have : ∀ c ∈ s, subst ([] : List (Char × Str)) c = [c] := fun c _ => rfl
    rw [flatMap_congr this, flatMap_singleton_id]
  | cons kv rest ih =>
    have hgood := List.all_eq_true.mp h
    have hkv := hgood kv (List.mem_cons_self _ _)
    have hrest : goodEntries rest = true :=
      List.all_eq_true.mpr fun kv' hm => hgood kv' (List.mem_cons_of_mem _ hm)
    have hkeys : ∀ kv' ∈ rest, isAsciiChar kv'.1 = false := by
      intro kv' hm
      have := hgood kv' (List.mem_cons_of_mem _ hm)
      have h1 := (Bool.and_eq_true _ _).mp this |>.1
      cases hb : isAsciiChar kv'.1
      · rfl
      · rw [hb] at h1; exact absurd h1 (by simp)
    show applyMap rest (replaceChar kv.1 kv.2 s) = _
    rw [ih hrest, replaceChar, List.flatMap_assoc]
    apply flatMap_congr
    intro c _
    by_cases hc : c = kv.1
    · subst hc
      rw [if_pos rfl]
      have hval : allAscii kv.2 = true := (Bool.and_eq_true _ _).mp hkv |>.2
      rw [flatMap_subst_ascii hkeys hval]
      simp [subst, lookupC_cons]
    · rw [if_neg hc]
      simp only [List.flatMap_cons, List.flatMap_nil, List.append_nil, subst, lookupC_cons,
        if_neg fun he : kv.1 = c => hc he.symm]

namespace TikzA

/-- The symbol replacement map of `normalizeToAscii` in src/unnamed/part_001
(lines 69-126), in source order: unicode character to ASCII/LaTeX string. -/
def replacements : List (Char × Str) := [
  ('ε', "\\varepsilon".toList),
  ('→', "\\to".toList),
  ('←', "\\leftarrow".toList),
  ('≥', "\\geq".toList),
  ('≤', "\\leq".toList),
  ('≠', "\\neq".toList),
  ('≈', "\\approx".toList),
  ('±', "\\pm".toList),
  ('×', "\\times".toList),
  ('÷', "\\div".toList),
  ('∞', "\\infty".toList),
  ('∑', "\\sum".toList),
  ('∏', "\\prod".toList),
  ('∫', "\\int".toList),
  ('√', "\\sqrt".toList),
  ('α', "\\alpha".toList),
  ('β', "\\beta".toList),
  ('γ', "\\gamma".toList),
  ('δ', "\\delta".toList),
  ('θ', "\\theta".toList),
  ('λ', "\\lambda".toList),
  ('μ', "\\mu".toList),
  ('π', "\\pi".toList),
  ('σ', "\\sigma".toList),
  ('φ', "\\phi".toList),
  ('ω', "\\omega".toList),
  ('Δ', "\\Delta".toList),
  ('Γ', "\\Gamma".toList),
  ('Λ', "\\Lambda".toList),
  ('Σ', "\\Sigma".toList),
  ('Ω', "\\Omega".toList),
  ('Φ', "\\Phi".toList),
  ('Ψ', "\\Psi".toList),
  ('∈', "\\in".toList),
  ('∉', "\\notin".toList),
  ('⊂', "\\subset".toList),
  ('⊃', "\\supset".toList),
  ('⊆', "\\subseteq".toList),
  ('⊇', "\\supseteq".toList),
  ('∪', "\\cup".toList),
  ('∩', "\\cap".toList),
  ('∅', "\\emptyset".toList),
  ('∧', "\\wedge".toList),
  ('∨', "\\vee".toList),
  ('¬', "\\neg".toList),
  ('∀', "\\forall".toList),
  ('∃', "\\exists".toList),
  ('⇒', "\\Rightarrow".toList),
  ('⇐', "\\Leftarrow".toList),
  ('⇔', "\\Leftrightarrow".toList),
  ('⊕', "\\oplus".toList),
  ('⊗', "\\otimes".toList),
  ('⊥', "\\perp".toList),
  ('∥', "\\parallel".toList),
  ('∠', "\\angle".toList)]

/-- Modelled canonical decomposition (`String.prototype.normalize('NFD')`),
restricted to the characters relevant to this repository: the 28 accented
Latin letters of the second variant's accent map, plus the two replacement-map
symbols that canonically decompose (U+2260 not-equal = `=` + U+0338 and
U+2209 not-element = U+2208 + U+0338).  All other characters are treated as
canonically inert, which matches real NFD on every character mentioned in the
theorems below. -/
def nfdTable : List (Char × Str) := [
  ('ç', ['c', '̧']), ('Ç', ['C', '̧']),
  ('ã', ['a', '̃']), ('Ã', ['A', '̃']),
  ('á', ['a', '́']), ('Á', ['A', '́']),
  ('à', ['a', '̀']), ('À', ['A', '̀']),
  ('â', ['a', '̂']), ('Â', ['A', '̂']),
  ('é', ['e', '́']), ('É', ['E', '́']),
  ('ê', ['e', '̂']), ('Ê', ['E', '̂']),
  ('í', ['i', '́']), ('Í', ['I', '́']),
  ('ó', ['o', '́']), ('Ó', ['O', '́']),
  ('ô', ['o', '̂']), ('Ô', ['O', '̂']),
  ('õ', ['o', '̃']), ('Õ', ['O', '̃']),
  ('ú', ['u', '́']), ('Ú', ['U', '́']),
  ('ü', ['u', '̈']), ('Ü', ['U', '̈']),
  ('ñ', ['n', '̃']), ('Ñ', ['N', '̃']),
  ('≠', ['=', '̸']), ('∉', ['∈', '̸'])]

/-- Canonical decomposition of a single character under the modelled table. -/
def nfdChar (c : Char) : Str := subst nfdTable c

/-- The comma-glyph normalization `normalized.replace(/[‚，]/g, ',')`
of part_001 line 66, as a per-character map (the class holds single
characters). -/
def glyphFix (c : Char) : Char :=
  if c = '‚' ∨ c = '，' then ',' else c

/-- `normalizeToAscii` of src/unnamed/part_001 (lines 54-134): ASCII fast
path, then NFD decomposition, stripping of combining marks U+0300-U+036F,
comma-glyph normalization, and the replacement map applied entry by entry. -/
def normalizeToAscii (s : Str) : Str :=
  if allAscii s then s
  else
    applyMap replacements
      (((s.flatMap nfdChar).filter fun c => !isCombining c).map glyphFix)

/-- The action of the non-fast-path pipeline on one character. -/
def pipeChar (c : Char) : Str :=
  (((nfdChar c).filter fun d => !isCombining d).map glyphFix).flatMap
    (subst replacements)

theorem goodRepl : goodEntries replacements = true := by decide

theorem nfdKeysNotAscii : nfdTable.all (fun kv => !isAsciiChar kv.1) = true := by decide

theorem pipeline_eq_flatMap (s : Str) :
    applyMap replacements
        (((s.flatMap nfdChar).filter fun c => !isCombining c).map glyphFix)
      = s.flatMap pipeChar := by
  rw [applyMap_eq_flatMap goodRepl]
  induction s with
  | nil => rfl
  | cons c cs ih =>
    simp only [List.flatMap_cons, List.filter_append, List.map_append,
      List.flatMap_append]
    rw [ih]
    rfl

theorem nfdPipeAscii : nfdTable.all (fun kv => allAscii (pipeChar kv.1)) = true := by
  decide

theorem replPipeAscii :
    replacements.all (fun kv => allAscii (pipeChar kv.1)) = true := by
  decide

theorem nfdKeysNotComb : nfdTable.all (fun kv => !isCombining kv.1) = true := by
  decide

theorem goodEntries_keys {m : List (Char × Str)} (h : goodEntries m = true) :
    ∀ kv ∈ m, isAsciiChar kv.1 = false := by
  intro kv hm
  have := List.all_eq_true.mp h kv hm
  have h1 := (Bool.and_eq_true _ _).mp this |>.1
  cases hb : isAsciiChar kv.1
  · rfl
  · rw [hb] at h1
    exact absurd h1 (by simp)

theorem lookupC_none_of_ascii {m : List (Char × Str)}
    (hm : ∀ kv ∈ m, isAsciiChar kv.1 = false) {c : Char}
    (hc : isAsciiChar c = true) : lookupC c m = none := by
  apply lookupC_eq_none
  intro kv hmem he
  have := hm kv hmem
  rw [he, hc] at this
  simp at this

theorem notComb_of_ascii {c : Char} (hc : isAsciiChar c = true) :
    isCombining c = false := by
  simp only [isAsciiChar, decide_eq_true_eq] at hc
  have h : ¬ (0x300 ≤ c.toNat) := by omega
  simp [isCombining, h]

theorem nfdKeys_notAscii : ∀ kv ∈ nfdTable, isAsciiChar kv.1 = false := by
  intro kv hm
  have := List.all_eq_true.mp nfdKeysNotAscii kv hm
  simpa using this

theorem ascii_pipeChar {c : Char} (hc : isAsciiChar c = true) : pipeChar c = [c] := by
  have h1 : nfdChar c = [c] := by
    unfold nfdChar subst
    rw [lookupC_none_of_ascii nfdKeys_notAscii hc]
    rfl
  have h2 : isCombining c = false := notComb_of_ascii hc
  have h3 : glyphFix c = c := by
    unfold glyphFix
    rw [if_neg]
    rintro (rfl | rfl) <;> exact absurd hc (by decide)
  have h4 : subst replacements c = [c] := subst_ascii (goodEntries_keys goodRepl) hc
  simp [pipeChar, h1, h2, h3, h4]

theorem comb_pipeChar {c : Char} (hc : isCombining c = true) : pipeChar c = [] := by
  have hT : lookupC c nfdTable = none := by
    apply lookupC_eq_none
    intro kv hm he
    have := List.all_eq_true.mp nfdKeysNotComb kv hm
    rw [he, hc] at this
    simp at this
  have h1 : nfdChar c = [c] := by
    unfold nfdChar subst
    rw [hT]
    rfl
  simp [pipeChar, h1, hc]

theorem glyph_pipeChar {c : Char} (hc : c = '‚' ∨ c = '，') : pipeChar c = [','] := by
  rcases hc with rfl | rfl <;> decide

theorem stable_pipeChar {c : Char} (hT : lookupC c nfdTable = none)
    (hC : isCombining c = false) (hG : ¬ (c = '‚' ∨ c = '，'))
    (hR : lookupC c replacements = none) : pipeChar c = [c] := by
  have h1 : nfdChar c = [c] := by
    unfold nfdChar subst
    rw [hT]
    rfl
  have h3 : glyphFix c = c := by
    unfold glyphFix
    rw [if_neg hG]
  simp [pipeChar, h1, hC, h3, subst, hR]

theorem pipe_dichotomy (c : Char) :
    allAscii (pipeChar c) = true ∨ pipeChar c = [c] := by
  by_cases hA : isAsciiChar c = true
  · exact Or.inr (ascii_pipeChar hA)
  cases hT : lookupC c nfdTable with
  | some v =>
    exact Or.inl (List.all_eq_true.mp nfdPipeAscii _ (lookupC_mem hT))
  | none =>
    by_cases hC : isCombining c = true
    · rw [comb_pipeChar hC]
      exact Or.inl rfl
    have hC' : isCombining c = false := by
      revert hC
      cases isCombining c <;> simp
    by_cases hG : c = '‚' ∨ c = '，'
    · rw [glyph_pipeChar hG]
      exact Or.inl (by decide)
    cases hR : lookupC c replacements with
    | some v =>
      exact Or.inl (List.all_eq_true.mp replPipeAscii _ (lookupC_mem hR))
    | none =>
      exact Or.inr (stable_pipeChar hT hC' hG hR)

theorem pipeChar_fix {c d : Char} (hd : d ∈ pipeChar c) : pipeChar d = [d] := by
  rcases pipe_dichotomy c with h | h
  · exact ascii_pipeChar (List.all_eq_true.mp h d hd)
  · rw [h] at hd
    simp only [List.mem_singleton] at hd
    subst hd
    exact h

theorem flatMap_pipeChar_fix (s : Str) :
    (s.flatMap pipeChar).flatMap pipeChar = s.flatMap pipeChar := by
  have h : ∀ d ∈ s.flatMap pipeChar, pipeChar d = [d] := by
    intro d hd
    obtain ⟨c, _, hdc⟩ := List.mem_flatMap.mp hd
    exact pipeChar_fix hdc
  rw [flatMap_congr h, flatMap_singleton_id]

theorem normalize_fast {s : Str} (h : allAscii s = true) : normalizeToAscii s = s := by
  rw [normalizeToAscii, if_pos h]

theorem normalize_full {s : Str} (h : ¬ allAscii s = true) :
    normalizeToAscii s = s.flatMap pipeChar := by
  rw [normalizeToAscii, if_neg h, pipeline_eq_flatMap]

theorem normalize_idem (s : Str) :
    normalizeToAscii (normalizeToAscii s) = normalizeToAscii s := by
  by_cases h : allAscii s = true
  · rw [normalize_fast h, normalize_fast h]
  · rw [normalize_full h]
    by_cases h2 : allAscii (s.flatMap pipeChar) = true
    · exact normalize_fast h2
    · rw [normalize_full h2, flatMap_pipeChar_fix]

/-- The class of characters the part_001 normalizer fully resolves to ASCII:
ASCII itself, the modelled decomposable accented letters, combining marks,
the two comma glyphs, and the replacement-map symbols. -/
def goodChar (c : Char) : Bool :=
  isAsciiChar c || (lookupC c nfdTable).isSome || isCombining c ||
    c = '‚' || c = '，' || (lookupC c replacements).isSome

theorem good_pipeChar_ascii {c : Char} (hc : goodChar c = true) :
    allAscii (pipeChar c) = true := by
  unfold goodChar at hc
  simp only [Bool.or_eq_true, decide_eq_true_eq, Option.isSome_iff_exists] at hc
  rcases hc with ((((hA | ⟨v, hT⟩) | hC) | hG) | hG) | ⟨v, hR⟩
  · rw [ascii_pipeChar hA]
    simpa [allAscii] using hA
  · exact List.all_eq_true.mp nfdPipeAscii _ (lookupC_mem hT)
  · rw [comb_pipeChar hC]
    rfl
  · rw [glyph_pipeChar (Or.inl hG)]
    decide
  · rw [glyph_pipeChar (Or.inr hG)]
    decide
  · exact List.all_eq_true.mp replPipeAscii _ (lookupC_mem hR)

theorem normalize_good_ascii {s : Str} (h : s.all goodChar = true) :
    allAscii (normalizeToAscii s) = true := by
  by_cases hf : allAscii s = true
  · rw [normalize_fast hf]
    exact hf
  · rw [normalize_full hf]
    apply List.all_eq_true.mpr
    intro d hd
    obtain ⟨c, hc, hdc⟩ := List.mem_flatMap.mp hd
    have := good_pipeChar_ascii (List.all_eq_true.mp h c hc)
    exact List.all_eq_true.mp this d hdc

end TikzA

namespace TikzB

/-- The accent part of the replacement map of `normalizeToAscii` in
src/unnamed/part_002 (lines 24-111), in source order. -/
def accentMap : List (Char × Str) := [
  ('ç', "c".toList), ('Ç', "C".toList),
  ('ã', "a".toList), ('Ã', "A".toList),
  ('á', "a".toList), ('Á', "A".toList),
  ('à', "a".toList), ('À', "A".toList),
  ('â', "a".toList), ('Â', "A".toList),
  ('é', "e".toList), ('É', "E".toList),
  ('ê', "e".toList), ('Ê', "E".toList),
  ('í', "i".toList), ('Í', "I".toList),
  ('ó', "o".toList), ('Ó', "O".toList),
  ('ô', "o".toList), ('Ô', "O".toList),
  ('õ', "o".toList), ('Õ', "O".toList),
  ('ú', "u".toList), ('Ú', "U".toList),
  ('ü', "u".toList), ('Ü', "U".toList),
  ('ñ', "n".toList), ('Ñ', "N".toList)]

/-- The full replacement map of part_002: accent entries followed by the same
symbol entries as part_001 (the source duplicates them verbatim). -/
def replacements : List (Char × Str) := accentMap ++ TikzA.replacements

/-- `normalizeToAscii` of src/unnamed/part_002 (lines 22-121): no fast path,
no NFD decomposition, just the replacement map applied entry by entry. -/
def normalizeToAscii (s : Str) : Str := applyMap replacements s

theorem goodReplB : goodEntries replacements = true := by decide

theorem normalize_eq_flatMap (s : Str) :
    normalizeToAscii s = s.flatMap (subst replacements) :=
  applyMap_eq_flatMap goodReplB s

/-- The characters on which the two normalizer variants agree: ASCII, the
accent-map letters, and the shared symbols apart from U+2260 and U+2209
(whose canonical decompositions make the part_001 variant resolve them to
`=` and `\in` instead of `\neq` and `\notin`). -/
def agreeChar (c : Char) : Bool :=
  isAsciiChar c || (lookupC c accentMap).isSome ||
    ((lookupC c TikzA.replacements).isSome && !(c = '≠') && !(c = '∉'))

theorem accentAgree :
    accentMap.all
      (fun kv => decide (TikzA.pipeChar kv.1 = subst replacements kv.1)) = true := by
  decide

theorem symAgree :
    TikzA.replacements.all
      (fun kv => (kv.1 = '≠' || kv.1 = '∉') ||
        decide (TikzA.pipeChar kv.1 = subst replacements kv.1)) = true := by
  decide

theorem agree_pipeChar {c : Char} (hc : agreeChar c = true) :
    TikzA.pipeChar c = subst replacements c := by
  unfold agreeChar at hc
  simp only [Bool.or_eq_true, Bool.and_eq_true, Option.isSome_iff_exists,
    Bool.not_eq_true', decide_eq_false_iff_not, decide_eq_true_eq] at hc
  rcases hc with (hA | ⟨v, hAcc⟩) | ⟨⟨⟨v, hSym⟩, hne⟩, hni⟩
  · rw [TikzA.ascii_pipeChar hA, subst_ascii (TikzA.goodEntries_keys goodReplB) hA]
  · have := List.all_eq_true.mp accentAgree _ (lookupC_mem hAcc)
    exact of_decide_eq_true this
  · have := List.all_eq_true.mp symAgree _ (lookupC_mem hSym)
    simp only [Bool.or_eq_true, decide_eq_true_eq] at this
    rcases this with (h | h) | h
    · exact absurd h hne
    · exact absurd h hni
    · exact h

theorem normalize_agree {s : Str} (h : s.all agreeChar = true) :
    TikzA.normalizeToAscii s = TikzB.normalizeToAscii s := by
  rw [normalize_eq_flatMap]
  by_cases hf : allAscii s = true
  · rw [TikzA.normalize_fast hf]
    have hcong : ∀ c ∈ s, subst replacements c = [c] := fun c hc =>
      subst_ascii (TikzA.goodEntries_keys goodReplB) (List.all_eq_true.mp hf c hc)
    rw [flatMap_congr hcong, flatMap_singleton_id]
  · rw [TikzA.normalize_full hf]
    exact flatMap_congr fun c hc => agree_pipeChar (List.all_eq_true.mp h c hc)

end TikzB

/-- Boolean prefix test used by the scanners. -/
def isPre : Str → Str → Bool
  | [], _ => true
  | _ :: _, [] => false
  | p :: ps, c :: cs => if p = c then isPre ps cs else false

theorem isPre_iff (p s : Str) : isPre p s = true ↔ ∃ t, s = p ++ t := by
  induction p generalizing s with
  | nil =>
    simp [isPre]
  | cons p ps ih =>
    cases s with
    | nil => simp [isPre]
    | cons c cs =>
      by_cases hp : p = c
      · subst hp
        show (if p = p then isPre ps cs else false) = true ↔ _
        rw [if_pos rfl, ih]
        constructor
        · rintro ⟨t, rfl⟩
          exact ⟨t, rfl⟩
        · rintro ⟨t, ht⟩
          exact ⟨t, (List.cons.inj ht).2⟩
      · show (if p = c then isPre ps cs else false) = true ↔ _
        rw [if_neg hp]
        constructor
        · intro h
          exact absurd h (by simp)
        · rintro ⟨t, ht⟩
          exact absurd (List.cons.inj ht).1.symm hp

theorem isPre_drop {p s : Str} (h : isPre p s = true) :
    s = p ++ s.drop p.length := by
  obtain ⟨t, rfl⟩ := (isPre_iff p s).mp h
  rw [List.drop_left]

/-- Leftmost-occurrence search: `splitFirst p ps s = some (before, after)`
exactly when the pattern `p :: ps` occurs in `s`, splitting at its first
occurrence. -/
def splitFirst (p : Char) (ps : Str) : Str → Option (Str × Str)
  | [] => none
  | c :: cs =>
    if isPre (p :: ps) (c :: cs) then some ([], (c :: cs).drop (ps.length + 1))
    else
      match splitFirst p ps cs with
      | some (b, a) => some (c :: b, a)
      | none => none

theorem splitFirst_append {p : Char} {ps s b a : Str}
    (h : splitFirst p ps s = some (b, a)) : s = b ++ (p :: ps) ++ a := by
  induction s generalizing b with
  | nil => simp [splitFirst] at h
  | cons c cs ih =>
    by_cases hp : isPre (p :: ps) (c :: cs) = true
    · simp only [splitFirst, if_pos hp] at h
      obtain ⟨rfl, rfl⟩ := Prod.mk.inj (Option.some.inj h)
      have := isPre_drop hp
      simpa using this
    · simp only [splitFirst, if_neg hp] at h
      cases hsp : splitFirst p ps cs with
      | none => rw [hsp] at h; exact absurd h (by simp)
      | some q =>
        obtain ⟨b2, a2⟩ := q
        rw [hsp] at h
        obtain ⟨rfl, rfl⟩ := Prod.mk.inj (Option.some.inj h)
        have := ih hsp
        simp [this]

/-- Substring test (the semantics of a literal-regex `test`). -/
def containsSubstr (pat : Str) : Str → Bool
  | [] => isPre pat []
  | c :: cs => isPre pat (c :: cs) || containsSubstr pat cs

theorem containsSubstr_iff (pat s : Str) :
    containsSubstr pat s = true ↔ ∃ a b, s = a ++ pat ++ b := by
  induction s with
  | nil =>
    simp only [containsSubstr, isPre_iff]
    constructor
    · rintro ⟨t, ht⟩
      exact ⟨[], t, by simpa using ht⟩
    · rintro ⟨a, b, hab⟩
      have ha : a = [] ∧ pat ++ b = [] := by
        have := hab.symm
        rw [List.append_assoc] at this
        exact List.append_eq_nil.mp this
      have hp : pat = [] ∧ b = [] := List.append_eq_nil.mp ha.2
      exact ⟨[], by simp [hp.1]⟩
  | cons c cs ih =>
    simp only [containsSubstr, Bool.or_eq_true, isPre_iff, ih]
    constructor
    · rintro (⟨t, ht⟩ | ⟨a, b, hab⟩)
      · exact ⟨[], t, by simpa using ht⟩
      · exact ⟨c :: a, b, by simp [hab]⟩
    · rintro ⟨a, b, hab⟩
      cases a with
      | nil =>
        exact Or.inl ⟨b, by simpa using hab⟩
      | cons a0 as =>
        obtain ⟨rfl, h2⟩ := List.cons.inj hab
        exact Or.inr ⟨as, b, h2⟩

namespace TikzA

/-- One chunk of the global `/\$([^$]+)\$/g` scan of `fixCommasInMath`:
literal text outside any match, or the content of one matched `$...$` run. -/
inductive Chunk
  | out (s : Str)
  | mathRun (content : Str)
deriving DecidableEq

/-- Extend the leading literal chunk by one character. -/
def consOut (c : Char) : List Chunk → List Chunk
  | .out s :: rest => .out (c :: s) :: rest
  | l => .out [c] :: l

/-- The left-to-right scan of `/\$([^$]+)\$/g`: a match starts at a `$`
followed by at least one non-`$` character and the next `$`; the fuel is
always at least the string length plus one at the entry point, and every
step consumes at least one character, so the fallback branch is never
reached there. -/
def dollarSplitGo : Nat → Str → List Chunk
  | 0, s => [.out s]
  | _ + 1, [] => []
  | fuel + 1, c :: cs =>
    if c = '$' then
      match splitFirst '$' [] cs with
      | none => [.out (c :: cs)]
      | some ([], _) => consOut c (dollarSplitGo fuel cs)
      | some (b :: bs, after) => .mathRun (b :: bs) :: dollarSplitGo fuel after
    else consOut c (dollarSplitGo fuel cs)

/-- The chunk decomposition of a string under the `$...$` scan. -/
def dollarSplit (s : Str) : List Chunk := dollarSplitGo (s.length + 1) s

/-- The original text of a chunk, delimiters included. -/
def chunkOrig : Chunk → Str
  | .out s => s
  | .mathRun b => '$' :: b ++ ['$']

/-- Concatenating the chunks' original text. -/
def rejoin (l : List Chunk) : Str := l.flatMap chunkOrig

/-- The callback's `content.replace(/,/g, '\\text{,}')`. -/
def commaSub (s : Str) : Str :=
  s.flatMap fun c => if c = ',' then "\\text\x7b,\x7d".toList else [c]

/-- A chunk after the fix: literal chunks unchanged, matched runs re-wrapped
in `$` with commas substituted. -/
def chunkFix : Chunk → Str
  | .out s => s
  | .mathRun b => '$' :: commaSub b ++ ['$']

/-- `fixCommasInMath` of src/unnamed/part_001 (lines 140-149): the global
replace `text.replace(/\$([^$]+)\$/g, ...)` as scan, per-match comma
substitution, rejoin. -/
def fixCommasInMath (s : Str) : Str := (dollarSplit s).flatMap chunkFix

theorem rejoin_consOut (c : Char) (l : List Chunk) :
    rejoin (consOut c l) = c :: rejoin l := by
  cases l with
  | nil => rfl
  | cons ch rest =>
    cases ch with
    | out s => simp [consOut, rejoin, chunkOrig]
    | mathRun b => rfl

theorem chunkFix_consOut (c : Char) (l : List Chunk) :
    (consOut c l).flatMap chunkFix = c :: l.flatMap chunkFix := by
  cases l with
  | nil => rfl
  | cons ch rest =>
    cases ch with
    | out s => simp [consOut, chunkFix]
    | mathRun b => rfl

theorem rejoin_dollarSplitGo (fuel : Nat) :
    ∀ s : Str, rejoin (dollarSplitGo fuel s) = s := by
  induction fuel with
  | zero =>
    intro s
    simp [dollarSplitGo, rejoin, chunkOrig]
  | succ fuel ih =>
    intro s
    cases s with
    | nil => rfl
    | cons c cs =>
      by_cases hc : c = '$'
      · subst hc
        simp only [dollarSplitGo, if_true]
        cases hsp : splitFirst '$' [] cs with
        | none =>
          show rejoin [Chunk.out ('$' :: cs)] = '$' :: cs
          simp [rejoin, chunkOrig]
        | some q =>
          obtain ⟨b, a⟩ := q
          cases b with
          | nil =>
            show rejoin (consOut '$' (dollarSplitGo fuel cs)) = '$' :: cs
            rw [rejoin_consOut, ih]
          | cons b0 bs =>
            have heq := splitFirst_append hsp
            show rejoin (Chunk.mathRun (b0 :: bs) :: dollarSplitGo fuel a) = '$' :: cs
            have iha := ih a
            simp only [rejoin, List.flatMap_cons, chunkOrig] at iha ⊢
            rw [iha]
            simp [heq]
      · simp only [dollarSplitGo, if_neg hc]
        rw [rejoin_consOut, ih]

/-- The chunk decomposition tiles the input exactly. -/
theorem rejoin_dollarSplit (s : Str) : rejoin (dollarSplit s) = s :=
  rejoin_dollarSplitGo _ s

theorem fix_id_of_noDollarGo (fuel : Nat) :
    ∀ s : Str, ('$' ∈ s → False) →
      (dollarSplitGo fuel s).flatMap chunkFix = s := by
  induction fuel with
  | zero =>
    intro s _
    simp [dollarSplitGo, chunkFix]
  | succ fuel ih =>
    intro s hs
    cases s with
    | nil => rfl
    | cons c cs =>
      have hc : ¬ c = '$' := fun h => hs (h ▸ List.mem_cons_self _ _)
      simp only [dollarSplitGo, if_neg hc]
      rw [chunkFix_consOut, ih cs fun h => hs (List.mem_cons_of_mem _ h)]

/-- On a string with no `$` at all, `fixCommasInMath` is the identity. -/
theorem fix_id_of_noDollar {s : Str} (hs : '$' ∉ s) : fixCommasInMath s = s :=
  fix_id_of_noDollarGo _ s hs

end TikzA

namespace LatexPreview

/-- An opaque rendered math segment: `span` is the exact matched text of the
original line (delimiters included), `content` the trimmed expression handed
to `katex.renderToString`, `displayMode` its mode flag.  Success and error
renderings both produce one rendered span whose HTML always contains the
substring `katex`, so the render outcome itself is abstracted away. -/
structure Seg where
  span : Str
  content : Str
  displayMode : Bool
deriving DecidableEq

/-- One element of a partially processed line: an untouched character, or an
already-rendered (opaque) segment. -/
inductive Elem
  | chr (c : Char)
  | done (sg : Seg)
deriving DecidableEq

/-- A partially processed line. -/
abbrev Line := List Elem

/-- One output piece of a processed line. -/
inductive Piece
  | text (s : Str)
  | math (content : Str) (displayMode : Bool) (span : Str)
deriving DecidableEq

/-- JavaScript `String.prototype.trim` on the characters that occur here. -/
def isSpaceChar (c : Char) : Bool :=
  c = ' ' || c = '\t' || c = '\n' || c = '\r' || c = '\x0b' || c = '\x0c'

/-- Trim whitespace from both ends (`content.trim()`). -/
def trim (s : Str) : Str :=
  ((s.dropWhile isSpaceChar).reverse.dropWhile isSpaceChar).reverse

/-- Build the segment for a match with opening token `op`, raw content and
closing token `cl`. -/
def mkSeg (op : Char × Str) (content : Str) (cl : Char × Str) (dm : Bool) : Seg :=
  { span := (op.1 :: op.2) ++ content ++ (cl.1 :: cl.2)
    content := trim content
    displayMode := dm }

/-- Scanner for the lazily delimited patterns `\[([\s\S]*?)\]`-style: opening
token, shortest content up to the closing token.  Fuel is at least the string
length plus one at every entry point and each step consumes at least one
character, so the fallback is never reached there. -/
def scanWrapGo (op cl : Char × Str) (dm : Bool) : Nat → Str → Line
  | 0, s => s.map .chr
  | _ + 1, [] => []
  | fuel + 1, c :: cs =>
    if isPre (op.1 :: op.2) (c :: cs) then
      match splitFirst cl.1 cl.2 ((c :: cs).drop (op.2.length + 1)) with
      | some (content, after) =>
        .done (mkSeg op content cl dm) :: scanWrapGo op cl dm fuel after
      | none => .chr c :: scanWrapGo op cl dm fuel cs
    else .chr c :: scanWrapGo op cl dm fuel cs

/-- The placeholder token substituted for each `$$...$$` block. -/
def placeholderL : Str := "___DOLLAR_DOLLAR___".toList

/-- Scanner for `/\$\$([\s\S]*?)\$\$/g` (part_000 lines 73-85): each match is
recorded in the ordered side list and the placeholder characters are inserted
into the line in its place. -/
def scanDDGo : Nat → Str → Line × List Seg
  | 0, s => (s.map .chr, [])
  | _ + 1, [] => ([], [])
  | fuel + 1, c :: cs =>
    if isPre ['$', '$'] (c :: cs) then
      match splitFirst '$' ['$'] ((c :: cs).drop 2) with
      | some (content, after) =>
        let p := scanDDGo fuel after
        (placeholderL.map .chr ++ p.1,
          mkSeg ('$', ['$']) content ('$', ['$']) true :: p.2)
      | none =>
        let p := scanDDGo fuel cs
        (.chr c :: p.1, p.2)
    else
      let p := scanDDGo fuel cs
      (.chr c :: p.1, p.2)

/-- Scanner for `/\$([^$\n]+?)\$/g` (part_000 line 97): a match needs a
nonempty run without `$` or newline between two `$`; a newline before the
next `$` means no match can start before that `$`. -/
def scanDollarGo : Nat → Str → Line
  | 0, s => s.map .chr
  | _ + 1, [] => []
  | fuel + 1, c :: cs =>
    if c = '$' then
      match splitFirst '$' [] cs with
      | none => .chr c :: cs.map .chr
      | some ([], _) => .chr c :: scanDollarGo fuel cs
      | some (b :: bs, after) =>
        if (b :: bs).any (fun x => x = '\n') then
          .chr c :: (b :: bs).map .chr ++ scanDollarGo fuel ('$' :: after)
        else
          .done (mkSeg ('$', []) (b :: bs) ('$', []) false) :: scanDollarGo fuel after
    else .chr c :: scanDollarGo fuel cs

/-- Split a line into its leading character run and the following
(rendered-segment, character-run) groups. -/
def runsOf : Line → Str × List (Seg × Str)
  | [] => ([], [])
  | .chr c :: rest =>
    let p := runsOf rest
    (c :: p.1, p.2)
  | .done sg :: rest =>
    let p := runsOf rest
    ([], (sg, p.1) :: p.2)

/-- Apply a string scanner to every maximal character run of a line; rendered
output is opaque, so matches never extend across an already-rendered
segment. -/
def liftScan (f : Str → Line) (l : Line) : Line :=
  let p := runsOf l
  f p.1 ++ p.2.flatMap fun g => .done g.1 :: f g.2

/-- As `liftScan`, for a scanner that also pushes onto the ordered side list;
the side lists are concatenated in left-to-right order, matching the order of
the replace callbacks. -/
def liftScanQ (f : Str → Line × List Seg) (l : Line) : Line × List Seg :=
  let p := runsOf l
  let first := f p.1
  let rest := p.2.map fun g => (g.1, f g.2)
  (first.1 ++ rest.flatMap fun g => .done g.1 :: g.2.1,
   first.2 ++ rest.flatMap fun g => g.2.2)

/-- Does the pattern occur at the head of the line as consecutive plain
characters? -/
def chrStarts : Str → Line → Bool
  | [], _ => true
  | _ :: _, [] => false
  | p :: ps, .chr c :: rest => if p = c then chrStarts ps rest else false
  | _ :: _, .done _ :: _ => false

/-- The restore pass (part_000 lines 106-109): each placeholder occurrence is
replaced, left to right, by the next recorded `$$` segment, or by nothing
once the side list is exhausted. -/
def restoreGo : Nat → List Seg → Line → Line
  | 0, _, l => l
  | _ + 1, _, [] => []
  | fuel + 1, q, e :: rest =>
    if chrStarts placeholderL (e :: rest) then
      match q with
      | sg :: q2 => .done sg :: restoreGo fuel q2 ((e :: rest).drop placeholderL.length)
      | [] => restoreGo fuel [] ((e :: rest).drop placeholderL.length)
    else e :: restoreGo fuel q rest

/-- Pass 1: `\[...\]` display blocks, on the raw line. -/
def pass1 (s : Str) : Line :=
  scanWrapGo ('\\', ['[']) ('\\', [']']) true (s.length + 1) s

/-- Pass 2: `$$...$$` blocks via placeholder plus side list. -/
def pass2 (l : Line) : Line × List Seg :=
  liftScanQ (fun r => scanDDGo (r.length + 1) r) l

/-- Pass 3: `\(...\)` inline math. -/
def pass3 (l : Line) : Line :=
  liftScan (fun r => scanWrapGo ('\\', ['(']) ('\\', [')']) false (r.length + 1) r) l

/-- Pass 4: `$...$` inline math. -/
def pass4 (l : Line) : Line :=
  liftScan (fun r => scanDollarGo (r.length + 1) r) l

/-- The full per-line pipeline of `processLatex` before the escape decision:
passes 1-4 then the placeholder restore. -/
def pipeline (s : Str) : Line :=
  let l4 := pass4 (pass3 (pass2 (pass1 s)).1)
  restoreGo (l4.length + 1) (pass2 (pass1 s)).2 l4

/-- Turn a nonempty character run into a text piece. -/
def textOpt : Str → List Piece
  | [] => []
  | s => [.text s]

/-- The output piece of a rendered segment. -/
def pieceOfSeg (sg : Seg) : Piece := .math sg.content sg.displayMode sg.span

/-- Collapse a processed line into its output pieces: maximal character runs
become text pieces, rendered segments become math pieces. -/
def collapse (l : Line) : List Piece :=
  let p := runsOf l
  textOpt p.1 ++ p.2.flatMap fun g => pieceOfSeg g.1 :: textOpt g.2

/-- The segmentation of one line (before the HTML-escape decision). -/
def segmentLine (s : Str) : List Piece := collapse (pipeline s)

/-- The plain characters of a line (rendered segments contribute nothing). -/
def charsOf (l : Line) : Str :=
  l.flatMap fun e => match e with | .chr c => [c] | .done _ => []

/-- Does the line hold any rendered segment? -/
def hasDone (l : Line) : Bool :=
  l.any fun e => match e with | .chr _ => false | .done _ => true

/-- The keyword of the escape test `processedLine.includes('katex')`. -/
def kwKatex : Str := "katex".toList

/-- The escape test: every rendered KaTeX span (success or error) contains
the substring `katex`, so the test holds iff some segment was rendered into
the line or the plain text itself contains the keyword. -/
def hasKatex (l : Line) : Bool := hasDone l || containsSubstr kwKatex (charsOf l)

/-- `escapeHtml` of part_000 lines 51-55 (`textContent`/`innerHTML` escaping
of the characters it affects). -/
def escapeHtml (s : Str) : Str := s.flatMap fun c =>
  if c = '&' then "&amp;".toList
  else if c = '<' then "&lt;".toList
  else if c = '>' then "&gt;".toList
  else [c]

/-- The rendered output pieces of one line (part_000 lines 61-117): if the
processed line contains no `katex`, the whole remaining text is HTML-escaped
as one unit; otherwise the pieces are emitted as they stand. -/
def renderLine (s : Str) : List Piece :=
  if hasKatex (pipeline s) then collapse (pipeline s)
  else [.text (escapeHtml (charsOf (pipeline s)))]

/-- `text.split('\n')`. -/
def splitLines : Str → List Str
  | [] => [[]]
  | c :: cs =>
    if c = '\n' then [] :: splitLines cs
    else
      match splitLines cs with
      | [] => [[c]]
      | l :: ls => (c :: l) :: ls

/-- `processLatex` of src/unnamed/part_000 (lines 49-120): split into lines,
process each (the lines are finally joined with a line-break marker). -/
def processLatex (s : Str) : List (List Piece) := (splitLines s).map renderLine

/-- Spec-modelled direct `$$` scanner (the spec's DESIGN NOTES alternative:
a single forward scan without placeholder bookkeeping): identical to
`scanDDGo` except that the segment is emitted in place. -/
def scanDDDirectGo : Nat → Str → Line
  | 0, s => s.map .chr
  | _ + 1, [] => []
  | fuel + 1, c :: cs =>
    if isPre ['$', '$'] (c :: cs) then
      match splitFirst '$' ['$'] ((c :: cs).drop 2) with
      | some (content, after) =>
        .done (mkSeg ('$', ['$']) content ('$', ['$']) true) :: scanDDDirectGo fuel after
      | none => .chr c :: scanDDDirectGo fuel cs
    else .chr c :: scanDDDirectGo fuel cs

/-- Spec-modelled direct pipeline: passes 1-4 with the `$$` segments emitted
in place, no placeholder and no restore. -/
def pipelineDirect (s : Str) : Line :=
  pass4 (pass3 (liftScan (fun r => scanDDDirectGo (r.length + 1) r) (pass1 s)))

/-- The segmentation computed by the direct pipeline. -/
def segmentLineDirect (s : Str) : List Piece := collapse (pipelineDirect s)

/-- The original text a processed line stands for: plain characters plus the
original spans of rendered segments. -/
def lineOrig (l : Line) : Str :=
  l.flatMap fun e => match e with | .chr c => [c] | .done sg => sg.span

/-- Concatenate the original spans of the output pieces. -/
def reconstruct (l : List Piece) : Str :=
  l.flatMap fun p => match p with | .text s => s | .math _ _ span => span

theorem lineOrig_nil : lineOrig [] = [] := rfl

theorem lineOrig_cons (e : Elem) (l : Line) :
    lineOrig (e :: l) =
      (match e with | .chr c => [c] | .done sg => sg.span) ++ lineOrig l := rfl

theorem lineOrig_append (a b : Line) :
    lineOrig (a ++ b) = lineOrig a ++ lineOrig b := by
  simp [lineOrig, List.flatMap_append]

theorem lineOrig_map_chr (s : Str) : lineOrig (s.map .chr) = s := by
  induction s with
  | nil => rfl
  | cons c cs ih => simp only [List.map_cons, lineOrig_cons, ih, List.singleton_append]

theorem lineOrig_scanWrapGo (op cl : Char × Str) (dm : Bool) (fuel : Nat) :
    ∀ s : Str, lineOrig (scanWrapGo op cl dm fuel s) = s := by
  induction fuel with
  | zero => intro s; exact lineOrig_map_chr s
  | succ fuel ih =>
    intro s
    cases s with
    | nil => rfl
    | cons c cs =>
      by_cases hp : isPre (op.1 :: op.2) (c :: cs) = true
      · simp only [scanWrapGo, if_pos hp]
        cases hsp : splitFirst cl.1 cl.2 ((c :: cs).drop (op.2.length + 1)) with
        | none =>
          show lineOrig (.chr c :: scanWrapGo op cl dm fuel cs) = c :: cs
          rw [lineOrig_cons, ih]
          rfl
        | some q =>
          obtain ⟨content, after⟩ := q
          show lineOrig (.done (mkSeg op content cl dm) :: scanWrapGo op cl dm fuel after)
            = c :: cs
          rw [lineOrig_cons, ih]
          have h1 := isPre_drop hp
          have h2 := splitFirst_append hsp
          rw [show (op.1 :: op.2).length = op.2.length + 1 from rfl] at h1
          rw [h1, h2]
          simp [mkSeg]
      · simp only [scanWrapGo, if_neg hp]
        show lineOrig (.chr c :: scanWrapGo op cl dm fuel cs) = c :: cs
        rw [lineOrig_cons, ih]
        rfl

theorem lineOrig_scanDDDirectGo (fuel : Nat) :
    ∀ s : Str, lineOrig (scanDDDirectGo fuel s) = s := by
  induction fuel with
  | zero => intro s; exact lineOrig_map_chr s
  | succ fuel ih =>
    intro s
    cases s with
    | nil => rfl
    | cons c cs =>
      by_cases hp : isPre ['$', '$'] (c :: cs) = true
      · simp only [scanDDDirectGo, if_pos hp]
        cases hsp : splitFirst '$' ['$'] ((c :: cs).drop 2) with
        | none =>
          show lineOrig (.chr c :: scanDDDirectGo fuel cs) = c :: cs
          rw [lineOrig_cons, ih]
          rfl
        | some q =>
          obtain ⟨content, after⟩ := q
          show lineOrig
              (.done (mkSeg ('$', ['$']) content ('$', ['$']) true) :: scanDDDirectGo fuel after)
            = c :: cs
          rw [lineOrig_cons, ih]
          have h1 := isPre_drop hp
          have h2 := splitFirst_append hsp
          rw [show (['$', '$'] : Str).length = 2 from rfl] at h1
          rw [h1, h2]
          simp [mkSeg]
      · simp only [scanDDDirectGo, if_neg hp]
        show lineOrig (.chr c :: scanDDDirectGo fuel cs) = c :: cs
        rw [lineOrig_cons, ih]
        rfl

theorem lineOrig_scanDollarGo (fuel : Nat) :
    ∀ s : Str, lineOrig (scanDollarGo fuel s) = s := by
  induction fuel with
  | zero => intro s; exact lineOrig_map_chr s
  | succ fuel ih =>
    intro s
    cases s with
    | nil => rfl
    | cons c cs =>
      by_cases hc : c = '$'
      · subst hc
        simp only [scanDollarGo, if_true]
        cases hsp : splitFirst '$' [] cs with
        | none =>
          show lineOrig (.chr '$' :: cs.map .chr) = '$' :: cs
          rw [lineOrig_cons, lineOrig_map_chr]
          rfl
        | some q =>
          obtain ⟨b, a⟩ := q
          have h2 := splitFirst_append hsp
          cases b with
          | nil =>
            show lineOrig (.chr '$' :: scanDollarGo fuel cs) = '$' :: cs
            rw [lineOrig_cons, ih]
            rfl
          | cons b0 bs =>
            show lineOrig
                (if ((b0 :: bs).any fun x => x = '\n') = true then
                  Elem.chr '$' :: (b0 :: bs).map Elem.chr ++ scanDollarGo fuel ('$' :: a)
                else
                  Elem.done (mkSeg ('$', []) (b0 :: bs) ('$', []) false) ::
                    scanDollarGo fuel a)
              = '$' :: cs
            by_cases hnl : ((b0 :: bs).any fun x => x = '\n') = true
            · rw [if_pos hnl]
              rw [show (Elem.chr '$' :: (b0 :: bs).map .chr ++ scanDollarGo fuel ('$' :: a) : Line)
                  = (Elem.chr '$' :: (b0 :: bs).map .chr) ++ scanDollarGo fuel ('$' :: a) from rfl,
                lineOrig_append, lineOrig_cons, lineOrig_map_chr, ih]
              simp [h2]
            · rw [if_neg hnl]
              rw [lineOrig_cons, ih]
              simp [mkSeg, h2]
      · simp only [scanDollarGo, if_neg hc]
        show lineOrig (.chr c :: scanDollarGo fuel cs) = c :: cs
        rw [lineOrig_cons, ih]
        rfl

theorem lineOrig_runsOf (l : Line) :
    lineOrig l = (runsOf l).1 ++ (runsOf l).2.flatMap fun g => g.1.span ++ g.2 := by
  induction l with
  | nil => rfl
  | cons e rest ih =>
    cases e with
    | chr c => simp [runsOf, lineOrig_cons, ih]
    | done sg => simp [runsOf, lineOrig_cons, ih]

theorem lineOrig_groups (f : Str → Line) (hf : ∀ r, lineOrig (f r) = r) :
    ∀ gs : List (Seg × Str),
      lineOrig (gs.flatMap fun g => .done g.1 :: f g.2)
        = gs.flatMap fun g => g.1.span ++ g.2 := by
  intro gs
  induction gs with
  | nil => rfl
  | cons g rest ih =>
    simp only [List.flatMap_cons, lineOrig_append, lineOrig_cons, hf, ih]

theorem lineOrig_liftScan (f : Str → Line) (hf : ∀ r, lineOrig (f r) = r) (l : Line) :
    lineOrig (liftScan f l) = lineOrig l := by
  unfold liftScan
  rw [lineOrig_append, hf, lineOrig_groups f hf, lineOrig_runsOf l]

theorem reconstruct_textOpt (s : Str) : reconstruct (textOpt s) = s := by
  cases s <;> simp [reconstruct, textOpt]

theorem reconstruct_append (a b : List Piece) :
    reconstruct (a ++ b) = reconstruct a ++ reconstruct b := by
  simp [reconstruct, List.flatMap_append]

theorem reconstruct_collapse (l : Line) : reconstruct (collapse l) = lineOrig l := by
  unfold collapse
  rw [reconstruct_append, reconstruct_textOpt, lineOrig_runsOf l]
  congr 1
  induction (runsOf l).2 with
  | nil => rfl
  | cons g rest ih =>
    simp only [List.flatMap_cons, reconstruct_append]
    rw [ih]
    congr 1
    rw [show reconstruct (pieceOfSeg g.1 :: textOpt g.2)
        = g.1.span ++ reconstruct (textOpt g.2) from rfl, reconstruct_textOpt]

theorem lineOrig_pass1 (s : Str) : lineOrig (pass1 s) = s :=
  lineOrig_scanWrapGo _ _ _ _ s

theorem lineOrig_pass3 (l : Line) : lineOrig (pass3 l) = lineOrig l :=
  lineOrig_liftScan _ (fun r => lineOrig_scanWrapGo _ _ _ _ r) l

theorem lineOrig_pass4 (l : Line) : lineOrig (pass4 l) = lineOrig l :=
  lineOrig_liftScan _ (fun r => lineOrig_scanDollarGo _ r) l

theorem lineOrig_pipelineDirect (s : Str) : lineOrig (pipelineDirect s) = s := by
  unfold pipelineDirect
  rw [lineOrig_pass4, lineOrig_pass3,
    lineOrig_liftScan _ (fun r => lineOrig_scanDDDirectGo _ r), lineOrig_pass1]

/-- The direct pipeline's segmentation tiles the input exactly. -/
theorem reconstruct_segmentLineDirect (s : Str) :
    reconstruct (segmentLineDirect s) = s := by
  unfold segmentLineDirect
  rw [reconstruct_collapse, lineOrig_pipelineDirect]

theorem runsOf_map_chr (s : Str) : runsOf (s.map .chr) = (s, []) := by
  induction s with
  | nil => rfl
  | cons c cs ih => simp [runsOf, ih]

theorem charsOf_map_chr (s : Str) : charsOf (s.map .chr) = s := by
  induction s with
  | nil => rfl
  | cons c cs ih => simp only [List.map_cons, charsOf, List.flatMap_cons] at ih ⊢; simp [ih]

theorem hasDone_map_chr (s : Str) : hasDone (s.map .chr) = false := by
  induction s with
  | nil => rfl
  | cons c cs ih => simp only [List.map_cons, hasDone, List.any_cons] at ih ⊢; simp [ih]

theorem collapse_map_chr {s : Str} (hs : s ≠ []) :
    collapse (s.map .chr) = [.text s] := by
  unfold collapse
  rw [runsOf_map_chr]
  cases s with
  | nil => exact absurd rfl hs
  | cons c cs => rfl

/-- A math delimiter character or opening token occurs in the line. -/
def hasDelim (s : Str) : Bool :=
  s.any (fun c => c = '$') || containsSubstr ['\\', '['] s ||
    containsSubstr ['\\', '('] s

/-- Shared conclusion for lines that come through all four passes unmatched
and untouched and do not contain the keyword `katex`: the whole line is one
text segment, HTML-escaped in the output. -/
theorem render_unmatched {s : Str} (hne : s ≠ [])
    (hp : pipeline s = s.map Elem.chr)
    (hk : containsSubstr kwKatex s = false) :
    renderLine s = [.text (escapeHtml s)] ∧ segmentLine s = [.text s] := by
  constructor
  · unfold renderLine
    rw [hp]
    have hno : hasKatex (s.map Elem.chr) = false := by
      unfold hasKatex
      rw [hasDone_map_chr, charsOf_map_chr, hk]
      rfl
    rw [if_neg (by simp [hno]), charsOf_map_chr]
  · unfold segmentLine
    rw [hp, collapse_map_chr hne]

end LatexPreview

namespace AppMain

/-- The diagram-start marker `\begin{tikzpicture}`. -/
def tikzMarker : Str := "\\begin\x7btikzpicture\x7d".toList

/-- `containsTikz` of src/src/App.tsx line 19: the raw input (before any
normalization) is tested for the literal marker. -/
def containsTikz (s : Str) : Bool := containsSubstr tikzMarker s

/-- The two rendering backends dispatched by App.tsx. -/
inductive Backend
  | tikz
  | katex
deriving DecidableEq

/-- The backend selection of App.tsx lines 83-87: `containsTikz` routes to
the TikZ diagram path, otherwise the KaTeX math path. -/
def route (s : Str) : Backend := if containsTikz s then .tikz else .katex

end AppMain

/-- Claim C1: the line `$$a+b$$ and $c$` segments into exactly a display-mode
math segment with content `a+b`, the text segment ` and ` between, and an
inline-mode math segment with content `c`; and the placeholder token
substituted for the `$$` block never appears in any text piece of the final
output. -/
theorem claim_C1 :
    LatexPreview.processLatex ("$$a+b$$ and $c$".toList)
        = [[LatexPreview.Piece.math ("a+b".toList) true ("$$a+b$$".toList),
            LatexPreview.Piece.text (" and ".toList),
            LatexPreview.Piece.math ("c".toList) false ("$c$".toList)]]
      ∧ ((LatexPreview.processLatex ("$$a+b$$ and $c$".toList)).all fun ps =>
          ps.all fun p => match p with
            | LatexPreview.Piece.text t => !containsSubstr LatexPreview.placeholderL t
            | LatexPreview.Piece.math _ _ _ => true) = true := by
  constructor
  · decide
  · decide

/-- Claim C2 counterexample: on the line `a___DOLLAR_DOLLAR___b` the restore
pass deletes the literal placeholder token from the text (no `$$` match was
recorded), so concatenating the segmentation's spans yields `ab`, not the
original line. -/
theorem claim_C2_cex :
    ¬ LatexPreview.reconstruct
        (LatexPreview.segmentLine ("a___DOLLAR_DOLLAR___b".toList))
      = ("a___DOLLAR_DOLLAR___b".toList) := by
  decide

/-- Claim C2 (amended): for every line on which the placeholder substitution
is transparent — the computed segmentation equals the direct in-place
segmentation, which holds whenever the placeholder token neither pre-exists
in the line nor is consumed or spuriously matched by a later pass — the
segmentation covers the line with no gaps or overlaps: concatenating, in
order, the text pieces and the original delimited math spans reconstructs the
line exactly. -/
theorem claim_C2 (s : Str)
    (h : LatexPreview.segmentLine s = LatexPreview.segmentLineDirect s) :
    LatexPreview.reconstruct (LatexPreview.segmentLine s) = s := by
  rw [h]
  exact LatexPreview.reconstruct_segmentLineDirect s

/-- Witness for claim C2 at the line `$$a+b$$ and $c$`. -/
theorem claim_C2_witness :
    LatexPreview.reconstruct
        (LatexPreview.segmentLine ("$$a+b$$ and $c$".toList))
      = ("$$a+b$$ and $c$".toList) :=
  claim_C2 _ (by decide)

/-- Claim C3 counterexample: the euro sign has no canonical decomposition, is
no comma glyph and is not in the replacement map, so `normalizeToAscii`
returns it unchanged and the output is not ASCII-only. -/
theorem claim_C3_cex :
    ¬ allAscii (TikzA.normalizeToAscii ("€".toList)) = true := by
  decide

/-- Claim C3 (amended): `normalizeToAscii` of part_001 returns an ASCII-only
string for every input whose characters are each ASCII, an entry of the
modelled decomposition table (the 28 accent-map accented Latin letters and
U+2260/U+2209), a combining mark U+0300-U+036F, one of the comma glyphs
U+201A/U+FF0C, or a replacement-map symbol.  The unrestricted claim fails:
for the input `€` the output is not ASCII-only. -/
theorem claim_C3 (s : Str) (h : s.all TikzA.goodChar = true) :
    allAscii (TikzA.normalizeToAscii s) = true :=
  TikzA.normalize_good_ascii h

/-- Witness for claim C3 at `çα≥ x`. -/
theorem claim_C3_witness :
    allAscii (TikzA.normalizeToAscii ("çα≥ x".toList)) = true :=
  claim_C3 _ (by decide)

/-- Claim C4 counterexample: in the line `<b> $x$` the run `<b> ` lies
outside the single matched math span, yet the output emits it verbatim (the
line contains rendered KaTeX, so the escape branch is skipped), while
HTML-escaping would have altered it. -/
theorem claim_C4_cex :
    LatexPreview.renderLine ("<b> $x$".toList)
        = [LatexPreview.Piece.text ("<b> ".toList),
           LatexPreview.Piece.math ("x".toList) false ("$x$".toList)]
      ∧ ¬ LatexPreview.escapeHtml ("<b> ".toList) = ("<b> ".toList) := by
  constructor
  · decide
  · decide

/-- Claim C4 (amended): HTML escaping happens only for a line in which no
math segment was rendered and whose text does not contain the substring
`katex`; such a line is escaped as one whole unit (and forms one text
segment); text runs of any other line are emitted without escaping. -/
theorem claim_C4 (s : Str) (hne : s ≠ [])
    (hp : LatexPreview.pipeline s = s.map LatexPreview.Elem.chr)
    (hk : containsSubstr LatexPreview.kwKatex s = false) :
    LatexPreview.renderLine s = [LatexPreview.Piece.text (LatexPreview.escapeHtml s)]
      ∧ LatexPreview.segmentLine s = [LatexPreview.Piece.text s] :=
  LatexPreview.render_unmatched hne hp hk

/-- Witness for claim C4 at the line `<b> hi`. -/
theorem claim_C4_witness :
    LatexPreview.renderLine ("<b> hi".toList)
      = [LatexPreview.Piece.text (LatexPreview.escapeHtml ("<b> hi".toList))] :=
  (claim_C4 _ (by decide) (by decide) (by decide)).1

/-- Claim C5 counterexample: the fixer rewrites the comma inside the
double-dollar display block `$$a,b$$` (the greedy `$`-scan matches `$a,b$`
inside it), producing `$$a\text{,}b$$`. -/
theorem claim_C5_cex :
    TikzA.fixCommasInMath ("$$a,b$$".toList) = ("$$a\\text\x7b,\x7db$$".toList)
      ∧ ¬ TikzA.fixCommasInMath ("$$a,b$$".toList) = ("$$a,b$$".toList) := by
  constructor
  · decide
  · decide

/-- Claim C5 (amended): commas inside a `$$...$$` display block are rewritten
exactly like inline ones; only spans not enclosed in any `$` pair are safe,
in particular on a string containing no `$` at all — such as a
bracket-delimited `\[a,b\]` display block line — the fixer is the identity. -/
theorem claim_C5 (s : Str) (h : '$' ∉ s) : TikzA.fixCommasInMath s = s :=
  TikzA.fix_id_of_noDollar h

/-- Witness for claim C5 at `\[a,b\]`. -/
theorem claim_C5_witness :
    TikzA.fixCommasInMath ("\\[a,b\\]".toList) = ("\\[a,b\\]".toList) :=
  claim_C5 _ (by decide)

/-- Claim C6: the `$`-scan decomposes every input into literal chunks and
matched `$...$` runs whose concatenation tiles the input exactly; the fixer
replaces every comma inside the matched runs and leaves the literal chunks
untouched (its definition rejoins exactly these chunks); in particular
`$a,b$` becomes `$a\text{,}b$`. -/
theorem claim_C6 :
    (∀ s : Str, TikzA.rejoin (TikzA.dollarSplit s) = s
      ∧ TikzA.fixCommasInMath s = (TikzA.dollarSplit s).flatMap TikzA.chunkFix)
      ∧ TikzA.fixCommasInMath ("$a,b$".toList) = ("$a\\text\x7b,\x7db$".toList) :=
  ⟨fun s => ⟨TikzA.rejoin_dollarSplit s, rfl⟩, by decide⟩

/-- Claim C7: the part_001 normalizer is idempotent, and on pure-ASCII input
it returns the identical string. -/
theorem claim_C7 (s : Str) :
    TikzA.normalizeToAscii (TikzA.normalizeToAscii s) = TikzA.normalizeToAscii s
      ∧ (allAscii s = true → TikzA.normalizeToAscii s = s) :=
  ⟨TikzA.normalize_idem s, fun h => TikzA.normalize_fast h⟩

/-- Witness for claim C7 at `abc`. -/
theorem claim_C7_witness :
    TikzA.normalizeToAscii (TikzA.normalizeToAscii ("abc".toList))
        = TikzA.normalizeToAscii ("abc".toList)
      ∧ TikzA.normalizeToAscii ("abc".toList) = ("abc".toList) :=
  ⟨(claim_C7 _).1, (claim_C7 _).2 (by decide)⟩

/-- Claim C9: the backend selector routes to the diagram path iff the raw
document contains the literal sequence `\begin{tikzpicture}` anywhere
(regardless of surrounding text), and otherwise routes to the math path. -/
theorem claim_C9 (s : Str) :
    (AppMain.route s = AppMain.Backend.tikz
      ↔ ∃ a b, s = a ++ AppMain.tikzMarker ++ b)
      ∧ (AppMain.route s = AppMain.Backend.katex
      ↔ ¬ ∃ a b, s = a ++ AppMain.tikzMarker ++ b) := by
  unfold AppMain.route AppMain.containsTikz
  by_cases h : containsSubstr AppMain.tikzMarker s = true
  · rw [if_pos h]
    constructor
    · exact ⟨fun _ => (containsSubstr_iff _ _).mp h, fun _ => rfl⟩
    · constructor
      · intro hk
        exact absurd hk (by simp)
      · intro hn
        exact absurd ((containsSubstr_iff _ _).mp h) hn
  · rw [if_neg h]
    constructor
    · constructor
      · intro hk
        exact absurd hk (by simp)
      · intro hex
        exact absurd ((containsSubstr_iff _ _).mpr hex) h
    · exact ⟨fun _ hex => h ((containsSubstr_iff _ _).mpr hex), fun _ => rfl⟩

/-- Claim C8 counterexample: the line `$katex <` contains an unterminated
`$` delimiter and no match, yet because its text contains the substring
`katex` the escape branch is skipped and the single text segment is emitted
verbatim, not HTML-escaped. -/
theorem claim_C8_cex :
    LatexPreview.renderLine ("$katex <".toList)
        = [LatexPreview.Piece.text ("$katex <".toList)]
      ∧ ¬ LatexPreview.escapeHtml ("$katex <".toList) = ("$katex <".toList) := by
  constructor
  · decide
  · decide

/-- Claim C8 (amended): a line that contains a math delimiter but in which no
delimiter pair matched (it comes through all passes untouched) yields one
literal text segment equal to the whole input and raises no error; it is
HTML-escaped provided the line does not contain the substring `katex`. -/
theorem claim_C8 (s : Str) (hne : s ≠ []) (_hd : LatexPreview.hasDelim s = true)
    (hp : LatexPreview.pipeline s = s.map LatexPreview.Elem.chr)
    (hk : containsSubstr LatexPreview.kwKatex s = false) :
    LatexPreview.renderLine s = [LatexPreview.Piece.text (LatexPreview.escapeHtml s)]
      ∧ LatexPreview.segmentLine s = [LatexPreview.Piece.text s] :=
  LatexPreview.render_unmatched hne hp hk

/-- Witness for claim C8 at the line `$unterminated`. -/
theorem claim_C8_witness :
    LatexPreview.renderLine ("$unterminated".toList)
      = [LatexPreview.Piece.text (LatexPreview.escapeHtml ("$unterminated".toList))] :=
  (claim_C8 _ (by decide) (by decide) (by decide) (by decide)).1

/-- Claim C10 counterexample: on the single low-9 quotation mark U+201A the
part_001 normalizer produces an ASCII comma while the part_002 normalizer
returns the character unchanged, so the two implementations differ. -/
theorem claim_C10_cex :
    ¬ TikzA.normalizeToAscii ("‚".toList) = TikzB.normalizeToAscii ("‚".toList) := by
  decide

/-- Claim C10 (amended): the two normalizer variants agree on every string
whose characters are ASCII, accent-map letters, or shared replacement-map
symbols other than U+2260 and U+2209; they differ on the comma glyphs (e.g.
U+201A), on accented letters outside the accent map, and on U+2260/U+2209,
which part_001 canonically decomposes to `=`/`\in` while part_002 maps them
to `\neq`/`\notin`. -/
theorem claim_C10 (s : Str) (h : s.all TikzB.agreeChar = true) :
    TikzA.normalizeToAscii s = TikzB.normalizeToAscii s :=
  TikzB.normalize_agree h

/-- Witness for claim C10 at `ç α ≥ x`. -/
theorem claim_C10_witness :
    TikzA.normalizeToAscii ("ç α ≥ x".toList)
      = TikzB.normalizeToAscii ("ç α ≥ x".toList) :=
  claim_C10 _ (by decide)

end LatexDiagrams
